import Mathlib

/-!
# Verification of the self-update subsystem of a ChatGPT Electron wrapper

Shallow embedding of `src/updater.js` (a GitHub-release based self updater).
Pure helpers of the JavaScript source are translated to Lean functions over
`String` / `List Char`; the effectful update pipeline is modelled as pure
functions over an explicit environment describing the outcome of each
network and filesystem operation, returning `Except` values (a thrown
JavaScript exception is `Except.error`) together with a trace of the
filesystem-mutating effects that were performed.

Definitions follow the source line by line and keep the source names.
-/

namespace Updater

/-! ## Model of the `semver` library calls used by `isNewerVersion`

`updater.js` calls `semver.coerce` and `semver.gt` from the npm `semver`
package (not part of this repository).  `semver.coerce` extracts the first
`major[.minor[.patch]]` digit group of a string via the COERCE regular
expression `(^|[^\d])(\d{1,16})(?:\.(\d{1,16}))?(?:\.(\d{1,16}))?($|[^\d])`,
defaulting missing minor/patch to `0`, and yields `null` when no group is
found or a component exceeds `Number.MAX_SAFE_INTEGER`.  `semver.gt` on two
coerced versions (which never carry a prerelease) is the strict
lexicographic comparison of `(major, minor, patch)`; it throws when an
argument is `null`. -/

/-- `Number.MAX_SAFE_INTEGER`, `2 ^ 53 - 1`; the semver parser rejects any
numeric component above this bound. -/
def MAX_SAFE_INTEGER : Nat := 9007199254740991

/-- A coerced semantic version: `major.minor.patch`, no prerelease part. -/
structure SemV where
  major : Nat
  minor : Nat
  patch : Nat
deriving DecidableEq, Repr

/-- Numeric value of a run of decimal digit characters. -/
def digitsToNat (l : List Char) : Nat :=
  l.foldl (fun acc c => acc * 10 + (c.toNat - 48)) 0

/-- Left-to-right scan for the first maximal digit run of length between 1
and 16, as the anchors `(^|[^\d])(\d{1,16})` of the COERCE regular
expression select it: a run longer than 16 digits cannot match (every
backtracking split leaves a digit right after the group) and the whole run
is skipped.  The boolean argument records whether the previous character
was a digit, i.e. whether the scan is inside an already rejected run.
Returns the matched run and the remaining characters after it. -/
def coerceScanFrom : List Char → Bool → Option (List Char × List Char)
  | [], _ => none
  | c :: cs, prevDigit =>
    if c.isDigit then
      if prevDigit then coerceScanFrom cs true
      else
        let run := c :: cs.takeWhile Char.isDigit
        if run.length ≤ 16 then some (run, cs.dropWhile Char.isDigit)
        else coerceScanFrom cs true
    else coerceScanFrom cs false

/-- One optional `(?:\.(\d{1,16}))?` group of the COERCE regular
expression: a dot followed by a digit run of length 1 to 16.  A longer run
makes the optional group fail to participate (the digit left over would
violate the closing `($|[^\d])` anchor), reverting to `none`. -/
def takeVersionComponent (l : List Char) : Option (Nat × List Char) :=
  match l with
  | [] => none
  | ch :: t =>
    if ch = '.' then
      let run := t.takeWhile Char.isDigit
      if run.length = 0 ∨ 16 < run.length then none
      else some (digitsToNat run, t.dropWhile Char.isDigit)
    else none

/-- Model of `semver.coerce` on a string argument: first digit group as
major, then optional minor and patch (patch is only reachable when minor
matched, since the two optional groups have identical patterns at the same
position), `null` when there is no digit run of length at most 16 or when a
component exceeds `MAX_SAFE_INTEGER` (the internal `parse` of the rebuilt
`major.minor.patch` string throws and `coerce` returns `null`). -/
def coerce (s : String) : Option SemV :=
  match coerceScanFrom s.toList false with
  | none => none
  | some (majRun, rest) =>
    let major := digitsToNat majRun
    let minorRest : Nat × List Char :=
      match takeVersionComponent rest with
      | some (m, r) => (m, r)
      | none => (0, [])
    let patch : Nat :=
      match takeVersionComponent minorRest.2 with
      | some (p, _) => p
      | none => 0
    if major ≤ MAX_SAFE_INTEGER ∧ minorRest.1 ≤ MAX_SAFE_INTEGER ∧
        patch ≤ MAX_SAFE_INTEGER then
      some ⟨major, minorRest.1, patch⟩
    else none

/-- Model of `semver.gt` on two non-null coerced versions: strict
lexicographic comparison of the main triple (both prerelease lists are
empty for coerced versions, so the prerelease tiebreak never applies). -/
def semverGtB (a b : SemV) : Bool :=
  if a.major ≠ b.major then decide (b.major < a.major)
  else if a.minor ≠ b.minor then decide (b.minor < a.minor)
  else decide (b.patch < a.patch)

/-- Strict semantic-version ordering on prerelease-free versions, written
directly from the specification wording (the comparison the spec calls
"strict semantic-version ordering" of the coerced forms). -/
def semVLt (a b : SemV) : Prop :=
  a.major < b.major ∨
    (a.major = b.major ∧
      (a.minor < b.minor ∨ (a.minor = b.minor ∧ a.patch < b.patch)))

instance (a b : SemV) : Decidable (semVLt a b) := by
  unfold semVLt; infer_instance

/-- Model of `isNewerVersion` (src/updater.js lines 124-130):
`try { return semver.gt(semver.coerce(latest), semver.coerce(current)) }
catch { return latest !== current }`.  `semver.gt` throws exactly when an
argument is `null`, i.e. when the corresponding coercion failed, and the
catch clause then answers with plain string inequality. -/
def isNewerVersion (latest current : String) : Bool :=
  match coerce latest, coerce current with
  | some l, some c => semverGtB l c
  | _, _ => latest != current

theorem semverGtB_iff (a b : SemV) : semverGtB a b = true ↔ semVLt b a := by
  unfold semverGtB semVLt
  rcases a with ⟨am, ai, ap⟩
  rcases b with ⟨bm, bi, bp⟩
  simp only [decide_eq_true_eq]
  split_ifs <;> simp_all <;> omega

/-- C1: for every pair of version strings that both coerce to valid
semantic versions, `isNewerVersion` answers true exactly when the first
coerced version is strictly greater than the second under semantic-version
ordering; when at least one side fails to coerce, it answers true exactly
when the two strings differ. -/
theorem isNewerVersion_semver_spec (a b : String) :
    (∀ va vb, coerce a = some va → coerce b = some vb →
      (isNewerVersion a b = true ↔ semVLt vb va)) ∧
    ((coerce a = none ∨ coerce b = none) →
      (isNewerVersion a b = true ↔ a ≠ b)) := by
  constructor
  · intro va vb ha hb
    unfold isNewerVersion
    rw [ha, hb]
    exact semverGtB_iff va vb
  · intro h
    unfold isNewerVersion
    rcases h with h | h <;> rw [h] <;>
      cases hb : coerce b <;> cases ha : coerce a <;>
        simp [bne_iff_ne]

/-- Closed instance of `isNewerVersion_semver_spec`: both `v1.3.0` and
`1.2.9` coerce, and the comparison agrees with the strict ordering. -/
theorem isNewerVersion_semver_spec_witness :
    isNewerVersion "v1.3.0" "1.2.9" = true ↔
      semVLt ⟨1, 2, 9⟩ ⟨1, 3, 0⟩ :=
  (isNewerVersion_semver_spec "v1.3.0" "1.2.9").1
    ⟨1, 3, 0⟩ ⟨1, 2, 9⟩ (by decide) (by decide)

/-- C9: `isNewerVersion` is total (the internal comparison failure is
caught, so every call returns a boolean) and irreflexive: on identical
strings it returns false, whether or not the string coerces. -/
theorem isNewerVersion_total_irrefl :
    (∀ a b : String, isNewerVersion a b = true ∨ isNewerVersion a b = false) ∧
    (∀ v : String, isNewerVersion v v = false) := by
  constructor
  · intro a b
    cases h : isNewerVersion a b
    · right; rfl
    · left; rfl
  · intro v
    unfold isNewerVersion
    cases hv : coerce v
    · simp
    · simp [semverGtB]

/-! ## Repo coordinate resolution

Models of `getRepoFromEnv`, `parseGithubRepoString`, `repoFromPackage` and
`resolveRepo` (src/updater.js lines 28-96).  Ambient process state
(`process.env.GITHUB_REPO`) is passed as an explicit argument, the empty
string standing for an unset variable, exactly as the `|| ''` default in
the source produces. -/

/-- JavaScript `String.prototype.trim` whitespace test, restricted to the
ASCII whitespace characters. -/
def isJsWhitespace (c : Char) : Bool :=
  c == ' ' || c == '\t' || c == '\n' || c == '\r' ||
    c.toNat == 11 || c.toNat == 12

/-- Character-list version of `String.prototype.trim`. -/
def trimChars (l : List Char) : List Char :=
  ((l.dropWhile isJsWhitespace).reverse.dropWhile isJsWhitespace).reverse

/-- `value.trim()` on a string. -/
def jsTrim (s : String) : String := String.mk (trimChars s.toList)

/-- `x.replace(/\.git$/, '')`: strip one trailing `.git` (case sensitive). -/
def stripDotGit (l : List Char) : List Char :=
  if l.reverse.take 4 = ['t', 'i', 'g', '.'] then (l.reverse.drop 4).reverse
  else l

/-- Case-insensitive character-list comparison (the `i` regex flag). -/
def ciEq (a b : List Char) : Bool :=
  a.map Char.toLower == b.map Char.toLower

/-- The plain-coordinate test `^[^\/]+\/[^\/]+$`: one slash, nonempty
slash-free text on both sides. -/
def simpleShape (l : List Char) : Bool :=
  let pre := l.takeWhile (· != '/')
  match l.dropWhile (· != '/') with
  | '/' :: tail => !pre.isEmpty && !tail.isEmpty && tail.all (· != '/')
  | _ => false

/-- The lazy repository group `([^\/#]+?)(?:\.git)?` matched against the
non-slash remainder up to the fragment: laziness makes the optional
(case-insensitive) `.git` group absorb a trailing `.git` whenever a
nonempty repository name precedes it. -/
def repoGroup (r0 : List Char) : Option (List Char) :=
  if r0.isEmpty then none
  else if 5 ≤ r0.length ∧ ciEq (r0.drop (r0.length - 4)) ['.', 'g', 'i', 't'] = true then
    some (r0.take (r0.length - 4))
  else some r0

/-- Tail of the URL regular expression
`(?<owner>[^\/]+)\/(?<repo>[^\/#]+?)(?:\.git)?(?:#.*)?$` applied after a
`github.com[:/]` occurrence: the greedy owner group runs to the first
slash, the remainder must contain no further slash (any slash after it
would be left unmatched before the end anchor), and the repository group
stops at the first `#`, whose suffix the fragment group swallows. -/
def urlTail (t : List Char) : Option (List Char × List Char) :=
  let owner := t.takeWhile (· != '/')
  match t.dropWhile (· != '/') with
  | '/' :: r =>
    if owner.isEmpty then none
    else if r.any (· == '/') then none
    else (repoGroup (r.takeWhile (· != '#'))).map (fun rep => (owner, rep))
  | _ => none

/-- Unanchored, case-insensitive search of
`github\.com[:\/](?<owner>[^\/]+)\/(?<repo>[^\/#]+?)(?:\.git)?(?:#.*)?$`:
try every position at which `github.com` followed by `:` or `/` occurs,
first successful tail match wins. -/
def urlScan : List Char → Option (List Char × List Char)
  | [] => none
  | c :: cs =>
    match (c :: cs).drop 10 with
    | sep :: t =>
      if ciEq ((c :: cs).take 10)
            ['g', 'i', 't', 'h', 'u', 'b', '.', 'c', 'o', 'm'] &&
          (sep == ':' || sep == '/') then
        match urlTail t with
        | some res => some res
        | none => urlScan cs
      else urlScan cs
    | [] => none

/-- The anchored SSH pattern
`^git@github\.com:(?<owner>[^\/]+)\/(?<repo>[^\/#]+?)(?:\.git)?$` (case
insensitive, no fragment group). -/
def sshMatch (l : List Char) : Option (List Char × List Char) :=
  if ciEq (l.take 15)
      ['g', 'i', 't', '@', 'g', 'i', 't', 'h', 'u', 'b', '.', 'c', 'o', 'm', ':'] then
    let t := l.drop 15
    let owner := t.takeWhile (· != '/')
    match t.dropWhile (· != '/') with
    | '/' :: r =>
      if owner.isEmpty || r.any (fun c => c == '/' || c == '#') then none
      else (repoGroup r).map (fun rep => (owner, rep))
    | _ => none
  else none

/-- Model of `parseGithubRepoString` (src/updater.js lines 34-53): trim,
reject the empty string, then try the plain `owner/project` shape (whole
string returned with a trailing `.git` stripped), then the URL shape, then
the SSH shape, building `owner + "/" + repo` with the repo stripped of a
trailing `.git`. -/
def parseGithubRepoString (value : String) : Option String :=
  let t := trimChars value.toList
  if t.isEmpty then none
  else if simpleShape t then some (String.mk (stripDotGit t))
  else
    match urlScan t with
    | some (o, r) => some (String.mk (o ++ '/' :: stripDotGit r))
    | none =>
      match sshMatch t with
      | some (o, r) => some (String.mk (o ++ '/' :: stripDotGit r))
      | none => none

/-- Model of `getRepoFromEnv` (src/updater.js lines 28-32): the override is
used whenever it contains a slash, and is returned trimmed. -/
def getRepoFromEnv (envRepo : String) : Option String :=
  if envRepo.toList.contains '/' then some (jsTrim envRepo) else none

/-- One entry of the `build.publish` array of package.json; `none` fields
model absent or non-string values. -/
structure PublishEntry where
  provider : Option String
  owner : Option String
  repo : Option String
  url : Option String
deriving Repr, DecidableEq

/-- The `repository` field of package.json: a bare string or an object
with optional `url`, `directory` and `repo` sub-fields. -/
inductive RepositoryField
  | str (s : String)
  | obj (url directory repo : Option String)
deriving Repr, DecidableEq

/-- The parts of package.json that `updater.js` reads.  `publish = none`
models an absent or non-array `build.publish`. -/
structure Pkg where
  publish : Option (List PublishEntry)
  repository : Option RepositoryField
  homepage : Option String
  version : Option String
deriving Repr, DecidableEq

/-- One `build.publish` entry inside the loop of `repoFromPackage`:
a `github` provider entry yields `owner.trim() + "/" + repo.trim()` when
both fields are strings, else its parsed `url`; anything else lets the
loop continue. -/
def publishEntryRepo (e : PublishEntry) : Option String :=
  if e.provider = some "github" then
    match e.owner, e.repo with
    | some o, some r => some (jsTrim o ++ "/" ++ jsTrim r)
    | _, _ => e.url.bind parseGithubRepoString
  else none

/-- The `for (const entry of publish)` loop: first entry that yields a
coordinate wins. -/
def publishLoop : List PublishEntry → Option String
  | [] => none
  | e :: rest => (publishEntryRepo e) <|> publishLoop rest

/-- The `repository` branch of `repoFromPackage`: a string is parsed
directly; an object tries `url`, then `directory`, then `repo`. -/
def repositoryRepo : Option RepositoryField → Option String
  | none => none
  | some (.str s) => parseGithubRepoString s
  | some (.obj url dir rep) =>
    (url.bind parseGithubRepoString) <|> (dir.bind parseGithubRepoString) <|>
      (rep.bind parseGithubRepoString)

/-- Model of `repoFromPackage` (src/updater.js lines 55-83): publish list,
then `repository` field, then `homepage`, first hit wins. -/
def repoFromPackage : Option Pkg → Option String
  | none => none
  | some p =>
    (publishLoop (p.publish.getD [])) <|> repositoryRepo p.repository <|>
      (p.homepage.bind parseGithubRepoString)

/-- Model of `resolveRepo` (src/updater.js lines 90-96): environment
override first, then package metadata. -/
def resolveRepo (envRepo : String) (pkg : Option Pkg) : Option String :=
  match getRepoFromEnv envRepo with
  | some r => some r
  | none => repoFromPackage pkg

/-- Slash-separated segments of a character list. -/
def slashSegments : List Char → List (List Char)
  | [] => [[]]
  | c :: cs =>
    let rest := slashSegments cs
    if c = '/' then [] :: rest
    else
      match rest with
      | seg :: tl => (c :: seg) :: tl
      | [] => [[c]]

/-- The `owner/project` shape exactly as the specification words it:
exactly two nonempty segments separated by one slash. -/
def ownerProjectShape (s : String) : Bool :=
  match slashSegments s.toList with
  | [o, p] => !o.isEmpty && !p.isEmpty
  | _ => false

/-- A package.json whose metadata resolves to `meta-owner/meta-repo`, used
to exhibit that a present override suppresses metadata. -/
def pkgMetaExample : Pkg :=
  { publish := none
  , repository := some (.str "https://github.com/meta-owner/meta-repo")
  , homepage := none
  , version := some "1.0.0" }

/-- C7 counterexample: the override `a/b/c` is not of the two-segment
`owner/project` shape, yet the resolver uses it (the code only tests for
the presence of a slash), ignoring metadata that would have produced
`meta-owner/meta-repo`. -/
theorem resolveRepo_env_shape_counterexample :
    ownerProjectShape "a/b/c" = false ∧
    resolveRepo "a/b/c" (some pkgMetaExample) = some "a/b/c" ∧
    repoFromPackage (some pkgMetaExample) = some "meta-owner/meta-repo" := by
  refine ⟨by decide, by decide, by decide⟩

/-- C7 amended: the resolver consults the environment override first and
uses it (trimmed) whenever it contains at least one slash; whenever such an
override is present every metadata-derived coordinate is ignored, and only
when it is absent is package metadata consulted. -/
theorem resolveRepo_env_override (env : String) (pkg : Option Pkg) :
    (env.toList.contains '/' = true →
      resolveRepo env pkg = some (jsTrim env)) ∧
    (env.toList.contains '/' = false →
      resolveRepo env pkg = repoFromPackage pkg) := by
  unfold resolveRepo getRepoFromEnv
  constructor <;> intro h <;> rw [h] <;> simp

/-- Closed instance of `resolveRepo_env_override`: a slash-containing
override wins over metadata. -/
theorem resolveRepo_env_override_witness :
    resolveRepo " owner/name " (some pkgMetaExample) =
      some (jsTrim " owner/name ") :=
  (resolveRepo_env_override " owner/name " (some pkgMetaExample)).1 (by decide)

/-- C8: evaluation of the shape detector on the forms named by the claim.
The plain and HTTPS (with `.git` or fragment suffix) forms of the same
coordinate normalize to the canonical `owner/project`, but the SSH form is
captured first by the plain matcher (an SSH remote contains exactly one
slash), so it is returned whole with only a trailing `.git` stripped; the
dedicated SSH branch is unreachable and the SSH form is not normalized to
the canonical coordinate. -/
theorem parseGithubRepoString_ssh_not_normalized :
    parseGithubRepoString "owner/project" = some "owner/project" ∧
    parseGithubRepoString "https://github.com/owner/project" =
      some "owner/project" ∧
    parseGithubRepoString "https://github.com/owner/project.git#readme" =
      some "owner/project" ∧
    parseGithubRepoString "git@github.com:owner/project.git" =
      some "git@github.com:owner/project" ∧
    parseGithubRepoString "git@github.com:owner/project.git" ≠
      some "owner/project" := by
  refine ⟨by decide, by decide, by decide, by decide, by decide⟩

/-! ## Filesystem model and the source overlay `copyRecursive`

A directory is a finite list of named entries in readdir order; an entry
is a regular file with its content, a directory with its children, or
`other` (any dirent that is neither a regular file nor a directory, e.g. a
symbolic link or socket, for which both `isDirectory()` and `isFile()` are
false).  `copyRecursive` (src/updater.js lines 153-167) walks the source
listing in order: excluded names are skipped; a directory entry is
`mkdir -p`-ed at the destination (which throws `EEXIST` when a non-directory
already sits at that path) and recursed into; a file entry is copied over
the destination path (copyFile throws when the destination is an existing
directory, and the model conservatively also rejects an `other`
destination, which has no meaningful copy-over semantics without link
targets); every other dirent kind is skipped.  A thrown filesystem error
is `Except.error`. -/

/-- A filesystem node. -/
inductive FsEntry where
  | file (content : String)
  | dir (children : List (String × FsEntry))
  | other
deriving Repr

/-- The fixed exclusion set (src/updater.js lines 20-26). -/
def DEFAULT_EXCLUDES : List String :=
  ["node_modules", ".git", "dist", "out", ".DS_Store"]

/-- First entry with the given name in a directory listing. -/
def lookupChild (n : String) : List (String × FsEntry) → Option FsEntry
  | [] => none
  | (m, e) :: rest => if m = n then some e else lookupChild n rest

/-- Write an entry into a directory listing: replace the first entry with
that name, or append a new one. -/
def setChild (n : String) (v : FsEntry) : List (String × FsEntry) → List (String × FsEntry)
  | [] => [(n, v)]
  | (m, e) :: rest => if m = n then (m, v) :: rest else (m, e) :: setChild n v rest

/-- Model of `copyRecursive(srcDir, dstDir)`: overlay the source listing
onto the destination listing, returning the new destination listing or the
first thrown filesystem error. -/
def copyRecursive : List (String × FsEntry) → List (String × FsEntry) →
    Except String (List (String × FsEntry))
  | [], dst => .ok dst
  | (name, entry) :: rest, dst =>
    if DEFAULT_EXCLUDES.contains name then copyRecursive rest dst
    else
      match entry with
      | .dir cs =>
        match lookupChild name dst with
        | some (.file _) => .error "EEXIST: mkdir over a file"
        | some .other => .error "EEXIST: mkdir over a special entry"
        | some (.dir ds) =>
          match copyRecursive cs ds with
          | .error e => .error e
          | .ok sub => copyRecursive rest (setChild name (.dir sub) dst)
        | none =>
          match copyRecursive cs [] with
          | .error e => .error e
          | .ok sub => copyRecursive rest (setChild name (.dir sub) dst)
      | .file c =>
        match lookupChild name dst with
        | some (.dir _) => .error "EISDIR: copyFile onto a directory"
        | some .other => .error "copyFile onto a special entry"
        | _ => copyRecursive rest (setChild name (.file c) dst)
      | .other => copyRecursive rest dst

/-- Well-formed directory listing: entry names are distinct at every
level, as the listings returned by `fs.readdir` always are. -/
def wfTree : List (String × FsEntry) → Bool
  | [] => true
  | (name, e) :: rest =>
    !((rest.map Prod.fst).contains name) && wfTree rest &&
      (match e with
       | .dir cs => wfTree cs
       | _ => true)

/-- Entry stored at a nonempty path of names, descending through
directories. -/
def entryAt (l : List (String × FsEntry)) : List String → Option FsEntry
  | [] => none
  | [n] => lookupChild n l
  | n :: p =>
    match lookupChild n l with
    | some (.dir cs) => entryAt cs p
    | _ => none

theorem lookupChild_setChild_self (n : String) (v : FsEntry) (l : List (String × FsEntry)) :
    lookupChild n (setChild n v l) = some v := by
  induction l with
  | nil => simp [setChild, lookupChild]
  | cons hd rest ih =>
    obtain ⟨m, e⟩ := hd
    by_cases h : m = n <;> simp [setChild, lookupChild, h, ih]

theorem lookupChild_setChild_ne {m n : String} (h : m ≠ n) (v : FsEntry)
    (l : List (String × FsEntry)) :
    lookupChild m (setChild n v l) = lookupChild m l := by
  induction l with
  | nil => simp [setChild, lookupChild, Ne.symm h]
  | cons hd rest ih =>
    obtain ⟨k, e⟩ := hd
    by_cases hk : k = n
    · subst hk
      simp [setChild, lookupChild, Ne.symm h]
    · by_cases hm2 : k = m <;> simp [setChild, lookupChild, hk, hm2, h, ih]

theorem setChild_eq_of_lookupChild {n : String} {v : FsEntry}
    {l : List (String × FsEntry)} (h : lookupChild n l = some v) :
    setChild n v l = l := by
  induction l with
  | nil => simp [lookupChild] at h
  | cons hd rest ih =>
    obtain ⟨m, e⟩ := hd
    by_cases hm : m = n
    · subst hm
      simp [lookupChild] at h
      simp [setChild, h]
    · simp [lookupChild, hm] at h
      simp [setChild, hm, ih h]

theorem lookupChild_eq_none {n : String} {l : List (String × FsEntry)} :
    lookupChild n l = none ↔ n ∉ l.map Prod.fst := by
  induction l with
  | nil => simp [lookupChild]
  | cons hd rest ih =>
    obtain ⟨m, e⟩ := hd
    by_cases hm : m = n
    · subst hm
      simp [lookupChild]
    · simp [lookupChild, hm, ih, Ne.symm hm]

/-! Branch-wise unfolding equations for `copyRecursive`. -/

theorem copyRecursive_nil (d : List (String × FsEntry)) :
    copyRecursive [] d = .ok d := by
  rw [copyRecursive.eq_def]

theorem copyRecursive_cons_excl {name : String}
    (h : DEFAULT_EXCLUDES.contains name = true) (entry : FsEntry)
    (rest d : List (String × FsEntry)) :
    copyRecursive ((name, entry) :: rest) d = copyRecursive rest d := by
  have hm : name ∈ DEFAULT_EXCLUDES := by simpa using h
  rw [copyRecursive.eq_def]; simp [hm]

theorem copyRecursive_cons_other {name : String}
    (h : DEFAULT_EXCLUDES.contains name = false)
    (rest d : List (String × FsEntry)) :
    copyRecursive ((name, .other) :: rest) d = copyRecursive rest d := by
  have hm : name ∉ DEFAULT_EXCLUDES := by simpa using h
  rw [copyRecursive.eq_def]; simp [hm]

theorem copyRecursive_cons_file_none {name : String} {d : List (String × FsEntry)}
    (h : DEFAULT_EXCLUDES.contains name = false)
    (hl : lookupChild name d = none) (c : String)
    (rest : List (String × FsEntry)) :
    copyRecursive ((name, .file c) :: rest) d =
      copyRecursive rest (setChild name (.file c) d) := by
  have hm : name ∉ DEFAULT_EXCLUDES := by simpa using h
  rw [copyRecursive.eq_def]; simp [hm, hl]

theorem copyRecursive_cons_file_file {name c0 : String} {d : List (String × FsEntry)}
    (h : DEFAULT_EXCLUDES.contains name = false)
    (hl : lookupChild name d = some (.file c0)) (c : String)
    (rest : List (String × FsEntry)) :
    copyRecursive ((name, .file c) :: rest) d =
      copyRecursive rest (setChild name (.file c) d) := by
  have hm : name ∉ DEFAULT_EXCLUDES := by simpa using h
  rw [copyRecursive.eq_def]; simp [hm, hl]

theorem copyRecursive_cons_file_dir {name : String}
    {d ds : List (String × FsEntry)}
    (h : DEFAULT_EXCLUDES.contains name = false)
    (hl : lookupChild name d = some (.dir ds)) (c : String)
    (rest : List (String × FsEntry)) :
    copyRecursive ((name, .file c) :: rest) d =
      .error "EISDIR: copyFile onto a directory" := by
  have hm : name ∉ DEFAULT_EXCLUDES := by simpa using h
  rw [copyRecursive.eq_def]; simp [hm, hl]

theorem copyRecursive_cons_file_special {name : String} {d : List (String × FsEntry)}
    (h : DEFAULT_EXCLUDES.contains name = false)
    (hl : lookupChild name d = some .other) (c : String)
    (rest : List (String × FsEntry)) :
    copyRecursive ((name, .file c) :: rest) d =
      .error "copyFile onto a special entry" := by
  have hm : name ∉ DEFAULT_EXCLUDES := by simpa using h
  rw [copyRecursive.eq_def]; simp [hm, hl]

theorem copyRecursive_cons_dir_none {name : String} {d : List (String × FsEntry)}
    (h : DEFAULT_EXCLUDES.contains name = false)
    (hl : lookupChild name d = none) (cs rest : List (String × FsEntry)) :
    copyRecursive ((name, .dir cs) :: rest) d =
      (match copyRecursive cs [] with
       | .error e => .error e
       | .ok sub => copyRecursive rest (setChild name (.dir sub) d)) := by
  have hm : name ∉ DEFAULT_EXCLUDES := by simpa using h
  rw [copyRecursive.eq_def]; simp [hm, hl]

theorem copyRecursive_cons_dir_dir {name : String}
    {d ds : List (String × FsEntry)}
    (h : DEFAULT_EXCLUDES.contains name = false)
    (hl : lookupChild name d = some (.dir ds)) (cs rest : List (String × FsEntry)) :
    copyRecursive ((name, .dir cs) :: rest) d =
      (match copyRecursive cs ds with
       | .error e => .error e
       | .ok sub => copyRecursive rest (setChild name (.dir sub) d)) := by
  have hm : name ∉ DEFAULT_EXCLUDES := by simpa using h
  rw [copyRecursive.eq_def]; simp [hm, hl]

theorem copyRecursive_cons_dir_file {name c0 : String} {d : List (String × FsEntry)}
    (h : DEFAULT_EXCLUDES.contains name = false)
    (hl : lookupChild name d = some (.file c0)) (cs rest : List (String × FsEntry)) :
    copyRecursive ((name, .dir cs) :: rest) d =
      .error "EEXIST: mkdir over a file" := by
  have hm : name ∉ DEFAULT_EXCLUDES := by simpa using h
  rw [copyRecursive.eq_def]; simp [hm, hl]

theorem copyRecursive_cons_dir_special {name : String} {d : List (String × FsEntry)}
    (h : DEFAULT_EXCLUDES.contains name = false)
    (hl : lookupChild name d = some .other) (cs rest : List (String × FsEntry)) :
    copyRecursive ((name, .dir cs) :: rest) d =
      .error "EEXIST: mkdir over a special entry" := by
  have hm : name ∉ DEFAULT_EXCLUDES := by simpa using h
  rw [copyRecursive.eq_def]; simp [hm, hl]

/-- During a successful overlay, a top-level name that is absent from the
source listing, or is excluded, keeps exactly the destination entry it had
(or stays absent). -/
theorem copyRecursive_lookup_preserved {s d d' : List (String × FsEntry)}
    (h : copyRecursive s d = .ok d') (n : String)
    (hn : n ∉ s.map Prod.fst ∨ DEFAULT_EXCLUDES.contains n = true) :
    lookupChild n d' = lookupChild n d := by
  induction s generalizing d d' with
  | nil =>
    rw [copyRecursive_nil] at h
    cases h
    rfl
  | cons hd rest ih =>
    obtain ⟨name, entry⟩ := hd
    have hne : n ∉ rest.map Prod.fst ∨ DEFAULT_EXCLUDES.contains n = true := by
      rcases hn with hn | hn
      · exact Or.inl fun hc => hn (List.mem_cons_of_mem _ hc)
      · exact Or.inr hn
    by_cases hx : DEFAULT_EXCLUDES.contains name = true
    · rw [copyRecursive_cons_excl hx] at h
      exact ih h hne
    · have hx2 : DEFAULT_EXCLUDES.contains name = false := by
        simpa using hx
      have hnname : n ≠ name := by
        rcases hn with hn | hn
        · intro hc; subst hc; exact hn (by simp)
        · intro hc; subst hc; rw [hn] at hx2; cases hx2
      cases entry with
      | other =>
        rw [copyRecursive_cons_other hx2] at h
        exact ih h hne
      | file c =>
        cases hl : lookupChild name d with
        | none =>
          rw [copyRecursive_cons_file_none hx2 hl] at h
          rw [ih h hne, lookupChild_setChild_ne hnname]
        | some e0 =>
          cases e0 with
          | file c0 =>
            rw [copyRecursive_cons_file_file hx2 hl] at h
            rw [ih h hne, lookupChild_setChild_ne hnname]
          | dir ds =>
            rw [copyRecursive_cons_file_dir hx2 hl] at h
            simp at h
          | other =>
            rw [copyRecursive_cons_file_special hx2 hl] at h
            simp at h
      | dir cs =>
        cases hl : lookupChild name d with
        | none =>
          rw [copyRecursive_cons_dir_none hx2 hl] at h
          cases hsub : copyRecursive cs [] with
          | error e => rw [hsub] at h; simp at h
          | ok sub =>
            rw [hsub] at h
            rw [ih h hne, lookupChild_setChild_ne hnname]
        | some e0 =>
          cases e0 with
          | file c0 =>
            rw [copyRecursive_cons_dir_file hx2 hl] at h
            simp at h
          | other =>
            rw [copyRecursive_cons_dir_special hx2 hl] at h
            simp at h
          | dir ds =>
            rw [copyRecursive_cons_dir_dir hx2 hl] at h
            cases hsub : copyRecursive cs ds with
            | error e => rw [hsub] at h; simp at h
            | ok sub =>
              rw [hsub] at h
              rw [ih h hne, lookupChild_setChild_ne hnname]

theorem wfTree_cons {name : String} {e : FsEntry}
    {rest : List (String × FsEntry)}
    (h : wfTree ((name, e) :: rest) = true) :
    name ∉ rest.map Prod.fst ∧ wfTree rest = true ∧
      (∀ cs, e = .dir cs → wfTree cs = true) := by
  rw [wfTree.eq_def] at h
  simp only [Bool.and_eq_true, Bool.not_eq_true'] at h
  obtain ⟨⟨h1, h2⟩, h3⟩ := h
  refine ⟨by simpa using h1, h2, ?_⟩
  intro cs he
  subst he
  simpa using h3

/-- A successful overlay is absorbed: running the same source listing a
second time over its own result reproduces that result unchanged. -/
theorem copyRecursive_absorbed (s d : List (String × FsEntry)) :
    ∀ d', wfTree s = true → copyRecursive s d = .ok d' →
      copyRecursive s d' = .ok d' := by
  induction s, d using copyRecursive.induct with
  | case1 dst =>
    intro d' _ h
    rw [copyRecursive_nil] at h
    have := Except.ok.inj h
    subst this
    exact copyRecursive_nil _
  | case2 name entry rest dst hx ih =>
    intro d' hw h
    obtain ⟨_, hwrest, _⟩ := wfTree_cons hw
    rw [copyRecursive_cons_excl hx] at h
    rw [copyRecursive_cons_excl hx]
    exact ih d' hwrest h
  | case3 name rest dst hx cs c0 hl =>
    intro d' _ h
    have hx2 : DEFAULT_EXCLUDES.contains name = false := by simpa using hx
    rw [copyRecursive_cons_dir_file hx2 hl] at h
    simp at h
  | case4 name rest dst hx cs hl =>
    intro d' _ h
    have hx2 : DEFAULT_EXCLUDES.contains name = false := by simpa using hx
    rw [copyRecursive_cons_dir_special hx2 hl] at h
    simp at h
  | case5 name rest dst hx cs ds hl e hcs _ =>
    intro d' _ h
    have hx2 : DEFAULT_EXCLUDES.contains name = false := by simpa using hx
    rw [copyRecursive_cons_dir_dir hx2 hl, hcs] at h
    simp at h
  | case6 name rest dst hx cs ds hl sub hcs ih1 ih2 =>
    intro d' hw h
    have hx2 : DEFAULT_EXCLUDES.contains name = false := by simpa using hx
    obtain ⟨hnm, hwrest, hwdir⟩ := wfTree_cons hw
    have hwcs := hwdir cs rfl
    have h2 : copyRecursive rest (setChild name (.dir sub) dst) = .ok d' := by
      rw [copyRecursive_cons_dir_dir hx2 hl, hcs] at h
      exact h
    have hld : lookupChild name d' = some (.dir sub) := by
      rw [copyRecursive_lookup_preserved h2 name (Or.inl hnm),
        lookupChild_setChild_self]
    have hgoal : copyRecursive rest (setChild name (.dir sub) d') = .ok d' := by
      rw [setChild_eq_of_lookupChild hld]
      exact ih2 d' hwrest h2
    rw [copyRecursive_cons_dir_dir hx2 hld, ih1 sub hwcs hcs]
    exact hgoal
  | case7 name rest dst hx cs hl e hcs _ =>
    intro d' _ h
    have hx2 : DEFAULT_EXCLUDES.contains name = false := by simpa using hx
    rw [copyRecursive_cons_dir_none hx2 hl, hcs] at h
    simp at h
  | case8 name rest dst hx cs hl sub hcs ih1 ih2 =>
    intro d' hw h
    have hx2 : DEFAULT_EXCLUDES.contains name = false := by simpa using hx
    obtain ⟨hnm, hwrest, hwdir⟩ := wfTree_cons hw
    have hwcs := hwdir cs rfl
    have h2 : copyRecursive rest (setChild name (.dir sub) dst) = .ok d' := by
      rw [copyRecursive_cons_dir_none hx2 hl, hcs] at h
      exact h
    have hld : lookupChild name d' = some (.dir sub) := by
      rw [copyRecursive_lookup_preserved h2 name (Or.inl hnm),
        lookupChild_setChild_self]
    have hgoal : copyRecursive rest (setChild name (.dir sub) d') = .ok d' := by
      rw [setChild_eq_of_lookupChild hld]
      exact ih2 d' hwrest h2
    rw [copyRecursive_cons_dir_dir hx2 hld, ih1 sub hwcs hcs]
    exact hgoal
  | case9 name rest dst hx c ds hl =>
    intro d' _ h
    have hx2 : DEFAULT_EXCLUDES.contains name = false := by simpa using hx
    rw [copyRecursive_cons_file_dir hx2 hl] at h
    simp at h
  | case10 name rest dst hx c hl =>
    intro d' _ h
    have hx2 : DEFAULT_EXCLUDES.contains name = false := by simpa using hx
    rw [copyRecursive_cons_file_special hx2 hl] at h
    simp at h
  | case11 name rest dst hx c hnd hno ih =>
    intro d' hw h
    have hx2 : DEFAULT_EXCLUDES.contains name = false := by simpa using hx
    obtain ⟨hnm, hwrest, _⟩ := wfTree_cons hw
    have h2 : copyRecursive rest (setChild name (.file c) dst) = .ok d' := by
      cases hl : lookupChild name dst with
      | none =>
        rw [copyRecursive_cons_file_none hx2 hl] at h
        exact h
      | some e0 =>
        cases e0 with
        | file c0 =>
          rw [copyRecursive_cons_file_file hx2 hl] at h
          exact h
        | dir ds => exact absurd hl (fun hc => hnd ds hc)
        | other => exact absurd hl hno
    have hld : lookupChild name d' = some (.file c) := by
      rw [copyRecursive_lookup_preserved h2 name (Or.inl hnm),
        lookupChild_setChild_self]
    rw [copyRecursive_cons_file_file hx2 hld,
      setChild_eq_of_lookupChild hld]
    exact ih d' hwrest h2
  | case12 name rest dst hx ih =>
    intro d' hw h
    have hx2 : DEFAULT_EXCLUDES.contains name = false := by simpa using hx
    obtain ⟨_, hwrest, _⟩ := wfTree_cons hw
    rw [copyRecursive_cons_other hx2] at h
    rw [copyRecursive_cons_other hx2]
    exact ih d' hwrest h

theorem entryAt_nil (l : List (String × FsEntry)) : entryAt l [] = none := rfl

theorem entryAt_single (l : List (String × FsEntry)) (n : String) :
    entryAt l [n] = lookupChild n l := rfl

theorem entryAt_cons_cons (l : List (String × FsEntry)) (n m : String)
    (p : List String) :
    entryAt l (n :: m :: p) =
      (match lookupChild n l with
       | some (.dir cs) => entryAt cs (m :: p)
       | _ => none) := rfl

theorem entryAt_cons_ne {name n : String} (hne : name ≠ n) (e : FsEntry)
    (rest : List (String × FsEntry)) (p : List String) :
    entryAt ((name, e) :: rest) (n :: p) = entryAt rest (n :: p) := by
  cases p with
  | nil => simp [entryAt_single, lookupChild, hne]
  | cons m q => simp [entryAt_cons_cons, lookupChild, hne]

theorem entryAt_cons_self_single (name : String) (e : FsEntry)
    (rest : List (String × FsEntry)) :
    entryAt ((name, e) :: rest) [name] = some e := by
  simp [entryAt_single, lookupChild]

theorem entryAt_cons_self_cons (name m : String) (p : List String) (e : FsEntry)
    (rest : List (String × FsEntry)) :
    entryAt ((name, e) :: rest) (name :: m :: p) =
      (match e with
       | .dir cs => entryAt cs (m :: p)
       | _ => none) := by
  cases e <;> simp [entryAt_cons_cons, lookupChild]

theorem entryAt_lookup_dir {l ds : List (String × FsEntry)} {n : String}
    (hl : lookupChild n l = some (.dir ds)) (m : String) (p : List String) :
    entryAt l (n :: m :: p) = entryAt ds (m :: p) := by
  rw [entryAt_cons_cons, hl]

theorem entryAt_lookup_special {l : List (String × FsEntry)} {n : String}
    (hl : lookupChild n l = some .other) (m : String) (p : List String) :
    entryAt l (n :: m :: p) = none := by
  rw [entryAt_cons_cons, hl]

theorem entryAt_lookup_none {l : List (String × FsEntry)} {n : String}
    (hl : lookupChild n l = none) (p : List String) :
    entryAt l (n :: p) = none := by
  cases p with
  | nil => rw [entryAt_single]; exact hl
  | cons m q => rw [entryAt_cons_cons, hl]

theorem entryAt_lookup_file {l : List (String × FsEntry)} {n c0 : String}
    (hl : lookupChild n l = some (.file c0)) (m : String) (p : List String) :
    entryAt l (n :: m :: p) = none := by
  rw [entryAt_cons_cons, hl]

theorem entryAt_setChild_ne {n name : String} (hne : n ≠ name) (v : FsEntry)
    (l : List (String × FsEntry)) (p : List String) :
    entryAt (setChild name v l) (n :: p) = entryAt l (n :: p) := by
  cases p with
  | nil => simp [entryAt_single, lookupChild_setChild_ne hne]
  | cons m q => simp [entryAt_cons_cons, lookupChild_setChild_ne hne]

/-- During a successful overlay of a well-formed source listing, a file of
the destination whose path is absent from the source survives unchanged. -/
theorem copyRecursive_additive (s d : List (String × FsEntry)) :
    ∀ d', wfTree s = true → copyRecursive s d = .ok d' →
      ∀ p cc, entryAt d p = some (.file cc) → entryAt s p = none →
        entryAt d' p = some (.file cc) := by
  induction s, d using copyRecursive.induct with
  | case1 dst =>
    intro d' _ h p cc hp _
    rw [copyRecursive_nil] at h
    have := Except.ok.inj h
    subst this
    exact hp
  | case2 name entry rest dst hx ih =>
    intro d' hw h p cc hp hs
    obtain ⟨hnm, hwrest, _⟩ := wfTree_cons hw
    rw [copyRecursive_cons_excl hx] at h
    cases p with
    | nil => simp [entryAt_nil] at hp
    | cons n q =>
      by_cases hne : n = name
      · subst hne
        have hlp := copyRecursive_lookup_preserved h n (Or.inl hnm)
        cases q with
        | nil =>
          rw [entryAt_single] at hp ⊢
          rw [hlp]
          exact hp
        | cons m q2 =>
          rw [entryAt_cons_cons] at hp ⊢
          rw [hlp]
          exact hp
      · have hs2 : entryAt rest (n :: q) = none := by
          rw [entryAt_cons_ne (fun hc => hne hc.symm)] at hs
          exact hs
        exact ih d' hwrest h (n :: q) cc hp hs2
  | case3 name rest dst hx cs c0 hl =>
    intro d' _ h p cc hp hs
    have hx2 : DEFAULT_EXCLUDES.contains name = false := by simpa using hx
    rw [copyRecursive_cons_dir_file hx2 hl] at h
    simp at h
  | case4 name rest dst hx cs hl =>
    intro d' _ h p cc hp hs
    have hx2 : DEFAULT_EXCLUDES.contains name = false := by simpa using hx
    rw [copyRecursive_cons_dir_special hx2 hl] at h
    simp at h
  | case5 name rest dst hx cs ds hl e hcs _ =>
    intro d' _ h p cc hp hs
    have hx2 : DEFAULT_EXCLUDES.contains name = false := by simpa using hx
    rw [copyRecursive_cons_dir_dir hx2 hl, hcs] at h
    simp at h
  | case6 name rest dst hx cs ds hl sub hcs ih1 ih2 =>
    intro d' hw h p cc hp hs
    have hx2 : DEFAULT_EXCLUDES.contains name = false := by simpa using hx
    obtain ⟨hnm, hwrest, hwdir⟩ := wfTree_cons hw
    have hwcs := hwdir cs rfl
    have h2 : copyRecursive rest (setChild name (.dir sub) dst) = .ok d' := by
      rw [copyRecursive_cons_dir_dir hx2 hl, hcs] at h
      exact h
    have hld : lookupChild name d' = some (.dir sub) := by
      rw [copyRecursive_lookup_preserved h2 name (Or.inl hnm),
        lookupChild_setChild_self]
    cases p with
    | nil => simp [entryAt_nil] at hp
    | cons n q =>
      by_cases hne : n = name
      · subst hne
        cases q with
        | nil =>
          rw [entryAt_cons_self_single] at hs
          simp at hs
        | cons m q2 =>
          have hs2 : entryAt cs (m :: q2) = none := by
            rw [entryAt_cons_self_cons] at hs
            exact hs
          have hp2 : entryAt ds (m :: q2) = some (.file cc) := by
            rw [entryAt_lookup_dir hl] at hp
            exact hp
          have hinner := ih1 sub hwcs hcs (m :: q2) cc hp2 hs2
          rw [entryAt_lookup_dir hld]
          exact hinner
      · have hs2 : entryAt rest (n :: q) = none := by
          rw [entryAt_cons_ne (fun hc => hne hc.symm)] at hs
          exact hs
        have hp2 : entryAt (setChild name (.dir sub) dst) (n :: q) =
            some (.file cc) := by
          rw [entryAt_setChild_ne hne]
          exact hp
        exact ih2 d' hwrest h2 (n :: q) cc hp2 hs2
  | case7 name rest dst hx cs hl e hcs _ =>
    intro d' _ h p cc hp hs
    have hx2 : DEFAULT_EXCLUDES.contains name = false := by simpa using hx
    rw [copyRecursive_cons_dir_none hx2 hl, hcs] at h
    simp at h
  | case8 name rest dst hx cs hl sub hcs ih1 ih2 =>
    intro d' hw h p cc hp hs
    have hx2 : DEFAULT_EXCLUDES.contains name = false := by simpa using hx
    obtain ⟨hnm, hwrest, hwdir⟩ := wfTree_cons hw
    have h2 : copyRecursive rest (setChild name (.dir sub) dst) = .ok d' := by
      rw [copyRecursive_cons_dir_none hx2 hl, hcs] at h
      exact h
    cases p with
    | nil => simp [entryAt_nil] at hp
    | cons n q =>
      by_cases hne : n = name
      · subst hne
        cases q with
        | nil =>
          rw [entryAt_cons_self_single] at hs
          simp at hs
        | cons m q2 =>
          rw [entryAt_lookup_none hl] at hp
          simp at hp
      · have hs2 : entryAt rest (n :: q) = none := by
          rw [entryAt_cons_ne (fun hc => hne hc.symm)] at hs
          exact hs
        have hp2 : entryAt (setChild name (.dir sub) dst) (n :: q) =
            some (.file cc) := by
          rw [entryAt_setChild_ne hne]
          exact hp
        exact ih2 d' hwrest h2 (n :: q) cc hp2 hs2
  | case9 name rest dst hx c ds hl =>
    intro d' _ h p cc hp hs
    have hx2 : DEFAULT_EXCLUDES.contains name = false := by simpa using hx
    rw [copyRecursive_cons_file_dir hx2 hl] at h
    simp at h
  | case10 name rest dst hx c hl =>
    intro d' _ h p cc hp hs
    have hx2 : DEFAULT_EXCLUDES.contains name = false := by simpa using hx
    rw [copyRecursive_cons_file_special hx2 hl] at h
    simp at h
  | case11 name rest dst hx c hnd hno ih =>
    intro d' hw h p cc hp hs
    have hx2 : DEFAULT_EXCLUDES.contains name = false := by simpa using hx
    obtain ⟨hnm, hwrest, _⟩ := wfTree_cons hw
    have h2 : copyRecursive rest (setChild name (.file c) dst) = .ok d' := by
      cases hl : lookupChild name dst with
      | none =>
        rw [copyRecursive_cons_file_none hx2 hl] at h
        exact h
      | some e0 =>
        cases e0 with
        | file c0 =>
          rw [copyRecursive_cons_file_file hx2 hl] at h
          exact h
        | dir ds => exact absurd hl (fun hc => hnd ds hc)
        | other => exact absurd hl hno
    cases p with
    | nil => simp [entryAt_nil] at hp
    | cons n q =>
      by_cases hne : n = name
      · subst hne
        cases q with
        | nil =>
          rw [entryAt_cons_self_single] at hs
          simp at hs
        | cons m q2 =>
          cases hl : lookupChild n dst with
          | none =>
            rw [entryAt_lookup_none hl] at hp
            simp at hp
          | some e0 =>
            cases e0 with
            | file c0 =>
              rw [entryAt_lookup_file hl] at hp
              simp at hp
            | dir ds => exact absurd hl (fun hc => hnd ds hc)
            | other => exact absurd hl hno
      · have hs2 : entryAt rest (n :: q) = none := by
          rw [entryAt_cons_ne (fun hc => hne hc.symm)] at hs
          exact hs
        have hp2 : entryAt (setChild name (.file c) dst) (n :: q) =
            some (.file cc) := by
          rw [entryAt_setChild_ne hne]
          exact hp
        exact ih d' hwrest h2 (n :: q) cc hp2 hs2
  | case12 name rest dst hx ih =>
    intro d' hw h p cc hp hs
    have hx2 : DEFAULT_EXCLUDES.contains name = false := by simpa using hx
    obtain ⟨hnm, hwrest, _⟩ := wfTree_cons hw
    rw [copyRecursive_cons_other hx2] at h
    cases p with
    | nil => simp [entryAt_nil] at hp
    | cons n q =>
      by_cases hne : n = name
      · subst hne
        have hlp := copyRecursive_lookup_preserved h n (Or.inl hnm)
        cases q with
        | nil =>
          rw [entryAt_cons_self_single] at hs
          simp at hs
        | cons m q2 =>
          rw [entryAt_cons_cons] at hp ⊢
          rw [hlp]
          exact hp
      · have hs2 : entryAt rest (n :: q) = none := by
          rw [entryAt_cons_ne (fun hc => hne hc.symm)] at hs
          exact hs
        exact ih d' hwrest h (n :: q) cc hp hs2

theorem entryAt_congr_lookup {l1 l2 : List (String × FsEntry)} {n : String}
    (hl : lookupChild n l1 = lookupChild n l2) (p : List String) :
    entryAt l1 (n :: p) = entryAt l2 (n :: p) := by
  cases p with
  | nil => rw [entryAt_single, entryAt_single, hl]
  | cons m q => rw [entryAt_cons_cons, entryAt_cons_cons, hl]

theorem entryAt_empty_cons (n : String) (p : List String) :
    entryAt ([] : List (String × FsEntry)) (n :: p) = none := by
  cases p <;> rfl

/-- C5: a successful overlay never creates or overwrites an entry whose
name belongs to the fixed exclusion set, at any depth of the recursion:
every path containing an excluded name component holds exactly the same
entry after the overlay as before, even when the source archive carries
entries of that name. -/
theorem copyRecursive_never_touches_excluded (s d : List (String × FsEntry)) :
    ∀ d', wfTree s = true → copyRecursive s d = .ok d' →
      ∀ p, (∃ x ∈ p, x ∈ DEFAULT_EXCLUDES) →
        entryAt d' p = entryAt d p := by
  induction s, d using copyRecursive.induct with
  | case1 dst =>
    intro d' _ h p _
    rw [copyRecursive_nil] at h
    have := Except.ok.inj h
    subst this
    rfl
  | case2 name entry rest dst hx ih =>
    intro d' hw h p hex
    obtain ⟨hnm, hwrest, _⟩ := wfTree_cons hw
    rw [copyRecursive_cons_excl hx] at h
    cases p with
    | nil => simp at hex
    | cons n q =>
      by_cases hne : n = name
      · subst hne
        exact entryAt_congr_lookup
          (copyRecursive_lookup_preserved h n (Or.inl hnm)) q
      · exact ih d' hwrest h (n :: q) hex
  | case3 name rest dst hx cs c0 hl =>
    intro d' _ h p hex
    have hx2 : DEFAULT_EXCLUDES.contains name = false := by simpa using hx
    rw [copyRecursive_cons_dir_file hx2 hl] at h
    simp at h
  | case4 name rest dst hx cs hl =>
    intro d' _ h p hex
    have hx2 : DEFAULT_EXCLUDES.contains name = false := by simpa using hx
    rw [copyRecursive_cons_dir_special hx2 hl] at h
    simp at h
  | case5 name rest dst hx cs ds hl e hcs _ =>
    intro d' _ h p hex
    have hx2 : DEFAULT_EXCLUDES.contains name = false := by simpa using hx
    rw [copyRecursive_cons_dir_dir hx2 hl, hcs] at h
    simp at h
  | case6 name rest dst hx cs ds hl sub hcs ih1 ih2 =>
    intro d' hw h p hex
    have hx2 : DEFAULT_EXCLUDES.contains name = false := by simpa using hx
    obtain ⟨hnm, hwrest, hwdir⟩ := wfTree_cons hw
    have hwcs := hwdir cs rfl
    have h2 : copyRecursive rest (setChild name (.dir sub) dst) = .ok d' := by
      rw [copyRecursive_cons_dir_dir hx2 hl, hcs] at h
      exact h
    have hld : lookupChild name d' = some (.dir sub) := by
      rw [copyRecursive_lookup_preserved h2 name (Or.inl hnm),
        lookupChild_setChild_self]
    cases p with
    | nil => simp at hex
    | cons n q =>
      by_cases hne : n = name
      · subst hne
        have hxq : ∃ x ∈ q, x ∈ DEFAULT_EXCLUDES := by
          obtain ⟨x, hxm, hxe⟩ := hex
          rcases List.mem_cons.mp hxm with hxm | hxm
          · subst hxm
            exact absurd hxe (by simpa using hx2)
          · exact ⟨x, hxm, hxe⟩
        obtain ⟨m, q2, rfl⟩ : ∃ m q2, q = m :: q2 := by
          cases q with
          | nil => simp at hxq
          | cons m q2 => exact ⟨m, q2, rfl⟩
        rw [entryAt_lookup_dir hld, entryAt_lookup_dir hl]
        exact ih1 sub hwcs hcs (m :: q2) hxq
      · rw [ih2 d' hwrest h2 (n :: q) hex, entryAt_setChild_ne hne]
  | case7 name rest dst hx cs hl e hcs _ =>
    intro d' _ h p hex
    have hx2 : DEFAULT_EXCLUDES.contains name = false := by simpa using hx
    rw [copyRecursive_cons_dir_none hx2 hl, hcs] at h
    simp at h
  | case8 name rest dst hx cs hl sub hcs ih1 ih2 =>
    intro d' hw h p hex
    have hx2 : DEFAULT_EXCLUDES.contains name = false := by simpa using hx
    obtain ⟨hnm, hwrest, hwdir⟩ := wfTree_cons hw
    have hwcs := hwdir cs rfl
    have h2 : copyRecursive rest (setChild name (.dir sub) dst) = .ok d' := by
      rw [copyRecursive_cons_dir_none hx2 hl, hcs] at h
      exact h
    have hld : lookupChild name d' = some (.dir sub) := by
      rw [copyRecursive_lookup_preserved h2 name (Or.inl hnm),
        lookupChild_setChild_self]
    cases p with
    | nil => simp at hex
    | cons n q =>
      by_cases hne : n = name
      · subst hne
        have hxq : ∃ x ∈ q, x ∈ DEFAULT_EXCLUDES := by
          obtain ⟨x, hxm, hxe⟩ := hex
          rcases List.mem_cons.mp hxm with hxm | hxm
          · subst hxm
            exact absurd hxe (by simpa using hx2)
          · exact ⟨x, hxm, hxe⟩
        obtain ⟨m, q2, rfl⟩ : ∃ m q2, q = m :: q2 := by
          cases q with
          | nil => simp at hxq
          | cons m q2 => exact ⟨m, q2, rfl⟩
        rw [entryAt_lookup_dir hld, entryAt_lookup_none hl]
        rw [ih1 sub hwcs hcs (m :: q2) hxq, entryAt_empty_cons]
      · rw [ih2 d' hwrest h2 (n :: q) hex, entryAt_setChild_ne hne]
  | case9 name rest dst hx c ds hl =>
    intro d' _ h p hex
    have hx2 : DEFAULT_EXCLUDES.contains name = false := by simpa using hx
    rw [copyRecursive_cons_file_dir hx2 hl] at h
    simp at h
  | case10 name rest dst hx c hl =>
    intro d' _ h p hex
    have hx2 : DEFAULT_EXCLUDES.contains name = false := by simpa using hx
    rw [copyRecursive_cons_file_special hx2 hl] at h
    simp at h
  | case11 name rest dst hx c hnd hno ih =>
    intro d' hw h p hex
    have hx2 : DEFAULT_EXCLUDES.contains name = false := by simpa using hx
    obtain ⟨hnm, hwrest, _⟩ := wfTree_cons hw
    have h2 : copyRecursive rest (setChild name (.file c) dst) = .ok d' := by
      cases hl : lookupChild name dst with
      | none =>
        rw [copyRecursive_cons_file_none hx2 hl] at h
        exact h
      | some e0 =>
        cases e0 with
        | file c0 =>
          rw [copyRecursive_cons_file_file hx2 hl] at h
          exact h
        | dir ds => exact absurd hl (fun hc => hnd ds hc)
        | other => exact absurd hl hno
    have hld : lookupChild name d' = some (.file c) := by
      rw [copyRecursive_lookup_preserved h2 name (Or.inl hnm),
        lookupChild_setChild_self]
    cases p with
    | nil => simp at hex
    | cons n q =>
      by_cases hne : n = name
      · subst hne
        have hxq : ∃ x ∈ q, x ∈ DEFAULT_EXCLUDES := by
          obtain ⟨x, hxm, hxe⟩ := hex
          rcases List.mem_cons.mp hxm with hxm | hxm
          · subst hxm
            exact absurd hxe (by simpa using hx2)
          · exact ⟨x, hxm, hxe⟩
        obtain ⟨m, q2, rfl⟩ : ∃ m q2, q = m :: q2 := by
          cases q with
          | nil => simp at hxq
          | cons m q2 => exact ⟨m, q2, rfl⟩
        rw [entryAt_lookup_file hld]
        cases hl : lookupChild n dst with
        | none => rw [entryAt_lookup_none hl]
        | some e0 =>
          cases e0 with
          | file c0 => rw [entryAt_lookup_file hl]
          | dir ds => exact absurd hl (fun hc => hnd ds hc)
          | other => exact absurd hl hno
      · rw [ih d' hwrest h2 (n :: q) hex, entryAt_setChild_ne hne]
  | case12 name rest dst hx ih =>
    intro d' hw h p hex
    have hx2 : DEFAULT_EXCLUDES.contains name = false := by simpa using hx
    obtain ⟨hnm, hwrest, _⟩ := wfTree_cons hw
    rw [copyRecursive_cons_other hx2] at h
    cases p with
    | nil => simp at hex
    | cons n q =>
      by_cases hne : n = name
      · subst hne
        exact entryAt_congr_lookup
          (copyRecursive_lookup_preserved h n (Or.inl hnm)) q
      · exact ih d' hwrest h (n :: q) hex

/-- C10: the overlay transfers only regular files and directories: an
entry of the extracted tree that is neither (modelled as `other`, e.g. a
symbolic link, for which both dirent tests are false) is silently skipped
at every depth, so after a successful overlay the install root holds at
that path exactly what it held before; in particular no entry is produced
there. -/
theorem copyRecursive_skips_special_entries (s d : List (String × FsEntry)) :
    ∀ d', wfTree s = true → copyRecursive s d = .ok d' →
      ∀ p, entryAt s p = some .other →
        entryAt d' p = entryAt d p := by
  induction s, d using copyRecursive.induct with
  | case1 dst =>
    intro d' _ h p _
    rw [copyRecursive_nil] at h
    have := Except.ok.inj h
    subst this
    rfl
  | case2 name entry rest dst hx ih =>
    intro d' hw h p hsp
    obtain ⟨hnm, hwrest, _⟩ := wfTree_cons hw
    rw [copyRecursive_cons_excl hx] at h
    cases p with
    | nil => simp [entryAt_nil] at hsp
    | cons n q =>
      by_cases hne : n = name
      · subst hne
        exact entryAt_congr_lookup
          (copyRecursive_lookup_preserved h n (Or.inl hnm)) q
      · have hsp2 : entryAt rest (n :: q) = some .other := by
          rw [entryAt_cons_ne (fun hc => hne hc.symm)] at hsp
          exact hsp
        exact ih d' hwrest h (n :: q) hsp2
  | case3 name rest dst hx cs c0 hl =>
    intro d' _ h p hsp
    have hx2 : DEFAULT_EXCLUDES.contains name = false := by simpa using hx
    rw [copyRecursive_cons_dir_file hx2 hl] at h
    simp at h
  | case4 name rest dst hx cs hl =>
    intro d' _ h p hsp
    have hx2 : DEFAULT_EXCLUDES.contains name = false := by simpa using hx
    rw [copyRecursive_cons_dir_special hx2 hl] at h
    simp at h
  | case5 name rest dst hx cs ds hl e hcs _ =>
    intro d' _ h p hsp
    have hx2 : DEFAULT_EXCLUDES.contains name = false := by simpa using hx
    rw [copyRecursive_cons_dir_dir hx2 hl, hcs] at h
    simp at h
  | case6 name rest dst hx cs ds hl sub hcs ih1 ih2 =>
    intro d' hw h p hsp
    have hx2 : DEFAULT_EXCLUDES.contains name = false := by simpa using hx
    obtain ⟨hnm, hwrest, hwdir⟩ := wfTree_cons hw
    have hwcs := hwdir cs rfl
    have h2 : copyRecursive rest (setChild name (.dir sub) dst) = .ok d' := by
      rw [copyRecursive_cons_dir_dir hx2 hl, hcs] at h
      exact h
    have hld : lookupChild name d' = some (.dir sub) := by
      rw [copyRecursive_lookup_preserved h2 name (Or.inl hnm),
        lookupChild_setChild_self]
    cases p with
    | nil => simp [entryAt_nil] at hsp
    | cons n q =>
      by_cases hne : n = name
      · subst hne
        cases q with
        | nil =>
          rw [entryAt_cons_self_single] at hsp
          simp at hsp
        | cons m q2 =>
          have hsp2 : entryAt cs (m :: q2) = some .other := by
            rw [entryAt_cons_self_cons] at hsp
            exact hsp
          rw [entryAt_lookup_dir hld, entryAt_lookup_dir hl]
          exact ih1 sub hwcs hcs (m :: q2) hsp2
      · have hsp2 : entryAt rest (n :: q) = some .other := by
          rw [entryAt_cons_ne (fun hc => hne hc.symm)] at hsp
          exact hsp
        rw [ih2 d' hwrest h2 (n :: q) hsp2, entryAt_setChild_ne hne]
  | case7 name rest dst hx cs hl e hcs _ =>
    intro d' _ h p hsp
    have hx2 : DEFAULT_EXCLUDES.contains name = false := by simpa using hx
    rw [copyRecursive_cons_dir_none hx2 hl, hcs] at h
    simp at h
  | case8 name rest dst hx cs hl sub hcs ih1 ih2 =>
    intro d' hw h p hsp
    have hx2 : DEFAULT_EXCLUDES.contains name = false := by simpa using hx
    obtain ⟨hnm, hwrest, hwdir⟩ := wfTree_cons hw
    have hwcs := hwdir cs rfl
    have h2 : copyRecursive rest (setChild name (.dir sub) dst) = .ok d' := by
      rw [copyRecursive_cons_dir_none hx2 hl, hcs] at h
      exact h
    have hld : lookupChild name d' = some (.dir sub) := by
      rw [copyRecursive_lookup_preserved h2 name (Or.inl hnm),
        lookupChild_setChild_self]
    cases p with
    | nil => simp [entryAt_nil] at hsp
    | cons n q =>
      by_cases hne : n = name
      · subst hne
        cases q with
        | nil =>
          rw [entryAt_cons_self_single] at hsp
          simp at hsp
        | cons m q2 =>
          have hsp2 : entryAt cs (m :: q2) = some .other := by
            rw [entryAt_cons_self_cons] at hsp
            exact hsp
          rw [entryAt_lookup_dir hld, entryAt_lookup_none hl,
            ih1 sub hwcs hcs (m :: q2) hsp2, entryAt_empty_cons]
      · have hsp2 : entryAt rest (n :: q) = some .other := by
          rw [entryAt_cons_ne (fun hc => hne hc.symm)] at hsp
          exact hsp
        rw [ih2 d' hwrest h2 (n :: q) hsp2, entryAt_setChild_ne hne]
  | case9 name rest dst hx c ds hl =>
    intro d' _ h p hsp
    have hx2 : DEFAULT_EXCLUDES.contains name = false := by simpa using hx
    rw [copyRecursive_cons_file_dir hx2 hl] at h
    simp at h
  | case10 name rest dst hx c hl =>
    intro d' _ h p hsp
    have hx2 : DEFAULT_EXCLUDES.contains name = false := by simpa using hx
    rw [copyRecursive_cons_file_special hx2 hl] at h
    simp at h
  | case11 name rest dst hx c hnd hno ih =>
    intro d' hw h p hsp
    have hx2 : DEFAULT_EXCLUDES.contains name = false := by simpa using hx
    obtain ⟨hnm, hwrest, _⟩ := wfTree_cons hw
    have h2 : copyRecursive rest (setChild name (.file c) dst) = .ok d' := by
      cases hl : lookupChild name dst with
      | none =>
        rw [copyRecursive_cons_file_none hx2 hl] at h
        exact h
      | some e0 =>
        cases e0 with
        | file c0 =>
          rw [copyRecursive_cons_file_file hx2 hl] at h
          exact h
        | dir ds => exact absurd hl (fun hc => hnd ds hc)
        | other => exact absurd hl hno
    cases p with
    | nil => simp [entryAt_nil] at hsp
    | cons n q =>
      by_cases hne : n = name
      · subst hne
        cases q with
        | nil =>
          rw [entryAt_cons_self_single] at hsp
          simp at hsp
        | cons m q2 =>
          rw [entryAt_cons_self_cons] at hsp
          simp at hsp
      · have hsp2 : entryAt rest (n :: q) = some .other := by
          rw [entryAt_cons_ne (fun hc => hne hc.symm)] at hsp
          exact hsp
        rw [ih d' hwrest h2 (n :: q) hsp2, entryAt_setChild_ne hne]
  | case12 name rest dst hx ih =>
    intro d' hw h p hsp
    have hx2 : DEFAULT_EXCLUDES.contains name = false := by simpa using hx
    obtain ⟨hnm, hwrest, _⟩ := wfTree_cons hw
    rw [copyRecursive_cons_other hx2] at h
    cases p with
    | nil => simp [entryAt_nil] at hsp
    | cons n q =>
      by_cases hne : n = name
      · subst hne
        exact entryAt_congr_lookup
          (copyRecursive_lookup_preserved h n (Or.inl hnm)) q
      · have hsp2 : entryAt rest (n :: q) = some .other := by
          rw [entryAt_cons_ne (fun hc => hne hc.symm)] at hsp
          exact hsp
        exact ih d' hwrest h (n :: q) hsp2

/-- C4: the source overlay is idempotent and additive-only.  For every
extracted archive tree (well formed: readdir listings carry distinct
names) and every install root, a successful overlay is absorbed — running
`copyRecursive` a second time over its own result returns that result
unchanged — and a file of the install root whose path is absent from the
archive is never deleted: it survives with its exact content. -/
theorem copyRecursive_idempotent_additive
    {s d d' : List (String × FsEntry)}
    (hw : wfTree s = true) (h : copyRecursive s d = .ok d') :
    copyRecursive s d' = .ok d' ∧
      (∀ p cc, entryAt d p = some (.file cc) → entryAt s p = none →
        entryAt d' p = some (.file cc)) :=
  ⟨copyRecursive_absorbed s d d' hw h,
    copyRecursive_additive s d d' hw h⟩

/-- Closed instance of `copyRecursive_idempotent_additive`: overlaying the
two-entry archive over a root that already holds `keep` and a `sub` tree
is absorbed on a second run, and the untracked file `keep` survives. -/
theorem copyRecursive_idempotent_additive_witness :
    copyRecursive
        [("a", FsEntry.file "x"), ("sub", FsEntry.dir [("b", FsEntry.file "y")])]
        [("keep", FsEntry.file "k"),
          ("sub", FsEntry.dir [("c", FsEntry.file "z"), ("b", FsEntry.file "y")]),
          ("a", FsEntry.file "x")] =
      .ok [("keep", FsEntry.file "k"),
        ("sub", FsEntry.dir [("c", FsEntry.file "z"), ("b", FsEntry.file "y")]),
        ("a", FsEntry.file "x")] ∧
    entryAt
        [("keep", FsEntry.file "k"),
          ("sub", FsEntry.dir [("c", FsEntry.file "z"), ("b", FsEntry.file "y")]),
          ("a", FsEntry.file "x")] ["keep"] = some (FsEntry.file "k") := by
  have hmain := @copyRecursive_idempotent_additive
    [("a", FsEntry.file "x"), ("sub", FsEntry.dir [("b", FsEntry.file "y")])]
    [("keep", FsEntry.file "k"), ("sub", FsEntry.dir [("c", FsEntry.file "z")])]
    [("keep", FsEntry.file "k"),
      ("sub", FsEntry.dir [("c", FsEntry.file "z"), ("b", FsEntry.file "y")]),
      ("a", FsEntry.file "x")]
    (by simp [wfTree])
    (by simp [copyRecursive, lookupChild, setChild, DEFAULT_EXCLUDES])
  exact ⟨hmain.1, hmain.2 ["keep"] "k" rfl rfl⟩

/-- Closed instance of `copyRecursive_never_touches_excluded`: an archive
carrying a `node_modules` tree leaves the (absent) `node_modules` of the
install root untouched. -/
theorem copyRecursive_never_touches_excluded_witness :
    entryAt [("ok", FsEntry.file "good")] ["node_modules"] =
      entryAt ([] : List (String × FsEntry)) ["node_modules"] :=
  copyRecursive_never_touches_excluded
    [("node_modules", FsEntry.dir [("x", FsEntry.file "evil")]),
      ("ok", FsEntry.file "good")]
    [] [("ok", FsEntry.file "good")]
    (by simp [wfTree])
    (by simp [copyRecursive, lookupChild, setChild, DEFAULT_EXCLUDES])
    ["node_modules"] (by decide)

/-- Closed instance of `copyRecursive_skips_special_entries`: a symbolic
link `link` in the archive produces nothing at `link` in the install root,
which keeps its original file. -/
theorem copyRecursive_skips_special_entries_witness :
    entryAt [("link", FsEntry.file "old"), ("f", FsEntry.file "new")] ["link"] =
      entryAt [("link", FsEntry.file "old")] ["link"] :=
  copyRecursive_skips_special_entries
    [("link", FsEntry.other), ("f", FsEntry.file "new")]
    [("link", FsEntry.file "old")]
    [("link", FsEntry.file "old"), ("f", FsEntry.file "new")]
    (by simp [wfTree])
    (by simp [copyRecursive, lookupChild, setChild, DEFAULT_EXCLUDES])
    ["link"] rfl

/-! ## Release client, packaged updater and orchestrator

The effectful pipeline (src/updater.js lines 108-122 and 169-264) is
modelled as pure functions over an `Env` record that carries the ambient
process state (environment variables, platform, executable path) together
with the outcome of every network and filesystem operation the pipeline
can attempt (a `Bool` per fallible operation; thrown error messages that
depend on dynamic data the model cannot observe, such as an AdmZip or
copyFile message, are modelled by fixed strings).  Each function returns
the JavaScript return value, or `Except.error` for an exception
propagating out of it, paired with the ordered trace of download and
filesystem-mutating effects it performed. -/

/-- One element of the release `assets` array; `none` models an absent or
non-string field. -/
structure Asset where
  name : Option String
  browser_download_url : Option String
deriving Repr, DecidableEq

/-- The decoded JSON body of the latest-release endpoint; `assets = none`
models a missing or non-array field. -/
structure ReleaseJson where
  tag_name : Option String
  name : Option String
  zipball_url : Option String
  assets : Option (List Asset)
  html_url : Option String
deriving Repr, DecidableEq

/-- Outcome of the release-metadata fetch: a decoded body, or a
non-success HTTP status (`res.ok` false). -/
inductive FetchOutcome
  | ok (data : ReleaseJson)
  | httpError (status : Nat)
deriving Repr, DecidableEq

/-- The release record `getLatestRelease` builds. -/
structure Release where
  version : Option String
  zipballUrl : Option String
  assets : List Asset
  htmlUrl : Option String
deriving Repr, DecidableEq

/-- JavaScript `a || b` on optional strings: absent values and the empty
string are falsy. -/
def jsOrStr (a b : Option String) : Option String :=
  match a with
  | some s => if s = "" then b else some s
  | none => b

/-- `tag.replace(/^v/, '')`: strip one leading `v` (case sensitive). -/
def stripLeadingV (s : String) : String :=
  match s.toList with
  | 'v' :: t => String.mk t
  | _ => s

/-- Model of `getLatestRelease` (src/updater.js lines 108-122): a
non-success status throws `GitHub API error <status>`; otherwise the tag
is `tag_name || name`, the version is that tag with one leading `v`
stripped (`null` when nothing remains), assets are normalized to an
array. -/
def getLatestRelease (res : FetchOutcome) : Except String Release :=
  match res with
  | .httpError status => .error ("GitHub API error " ++ toString status)
  | .ok data =>
    let tag := jsOrStr data.tag_name data.name
    .ok
      { version := jsOrStr (tag.map stripLeadingV) none
      , zipballUrl := data.zipball_url
      , assets := data.assets.getD []
      , htmlUrl := data.html_url }

/-- Ambient process state plus the outcome of each fallible network and
filesystem operation of one update attempt.  Environment variables hold
the empty string when unset, matching their JavaScript falsiness. -/
structure Env where
  githubRepo : String
  githubToken : String
  appImage : String
  platformLinux : Bool
  execPath : String
  pkgLoad : Option Pkg
  fetchRelease : FetchOutcome
  downloadZipOk : Bool
  downloadZipStatus : Nat
  extractOk : Bool
  copyOk : Bool
  downloadBinOk : Bool
  downloadBinStatus : Nat
  backupCopyOk : Bool
  applyCopyOk : Bool
  tmpDir : String
  now : Nat
deriving Repr

/-- The classification `detectPackagedInstall` returns. -/
inductive InstallInfo
  | appimage (path : String)
  | system (execPath : String)
  | unknown (execPath : String)
deriving Repr, DecidableEq

/-- Model of `detectPackagedInstall` (src/updater.js lines 169-180):
a truthy `APPIMAGE` variable wins; else, on Linux, an executable under
`/usr` or `/opt` is a system install; else unknown. -/
def detectPackagedInstall (env : Env) : InstallInfo :=
  if env.appImage != "" then .appimage env.appImage
  else if env.platformLinux &&
      (env.execPath.startsWith "/usr" || env.execPath.startsWith "/opt") then
    .system env.execPath
  else .unknown env.execPath

/-- A download or filesystem-mutating effect, in the order performed. -/
inductive Effect
  | mkdtemp (dir : String)
  | download (url dest : String)
  | chmod (path : String)
  | copyFile (src dst : String)
  | rmFile (path : String)
  | rmDir (dir : String)
  | overlayTree
deriving Repr, DecidableEq

/-- The result object of `checkForUpdates`: `updated: false` objects carry
a reason and sometimes an `openUrl`; `updated: true` objects carry the
latest version and, only on the AppImage path, a `backupPath` string
(`none` models an absent field). -/
inductive Outcome
  | notUpdated (reason : String) (openUrl : Option String)
  | updated (latestVersion : Option String) (backupPath : Option String)
deriving Repr, DecidableEq

/-- `path.basename`: the last slash-separated segment, trailing slashes
ignored. -/
def basename (p : String) : String :=
  String.mk ((p.toList.reverse.dropWhile (· == '/')).takeWhile (· != '/')).reverse

/-- JavaScript `String.prototype.endsWith` on the list model. -/
def endsWithStr (s suffix : String) : Bool :=
  decide (suffix.toList.length ≤ s.toList.length) &&
    decide (s.toList.drop (s.toList.length - suffix.toList.length) = suffix.toList)

/-- The temporary file the AppImage applier downloads to:
`path.join(tmpDir, asset.name || path.basename(installInfo.path))`. -/
def appImageTmpPath (env : Env) (asset : Asset) (installPath : String) : String :=
  env.tmpDir ++ "/" ++ (jsOrStr asset.name (some (basename installPath))).getD ""

/-- Model of `applyAppImageUpdate` (src/updater.js lines 191-213): bail
out on a missing download URL; create a temp dir, download the asset
(non-success status throws before anything is written), mark it
executable, try to copy the current binary to a timestamped backup path
(failure only emits a warning status), copy the downloaded file over the
live path (a failure here propagates), mark it executable, best-effort
remove the temp file and dir, and return `updated` with the version and
the precomputed backup path string. -/
def applyAppImageUpdate (env : Env) (asset : Asset) (installPath : String)
    (version : Option String) : Except String Outcome × List Effect :=
  match asset.browser_download_url with
  | none => (.ok (.notUpdated "asset_missing" none), [])
  | some url =>
    let tmpPath := appImageTmpPath env asset installPath
    if env.downloadBinOk = false then
      (.error ("Download failed " ++ toString env.downloadBinStatus),
        [.mkdtemp env.tmpDir])
    else
      let backupPath := installPath ++ ".bak-" ++ toString env.now
      let backupEffects : List Effect :=
        if env.backupCopyOk then [.copyFile installPath backupPath] else []
      if env.applyCopyOk = false then
        (.error "copy failed",
          [.mkdtemp env.tmpDir, .download url tmpPath, .chmod tmpPath] ++
            backupEffects)
      else
        (.ok (.updated version (some backupPath)),
          [.mkdtemp env.tmpDir, .download url tmpPath, .chmod tmpPath] ++
            backupEffects ++
            [.copyFile tmpPath installPath, .chmod installPath,
              .rmFile tmpPath, .rmDir env.tmpDir])

/-- `release.assets?.find(a => typeof a.name === 'string' &&
a.name.endsWith('.AppImage'))`. -/
def findAppImageAsset (assets : List Asset) : Option Asset :=
  assets.find? (fun a =>
    match a.name with
    | some n => endsWithStr n ".AppImage"
    | none => false)

/-- Model of `handlePackagedUpdate` (src/updater.js lines 215-230). -/
def handlePackagedUpdate (env : Env) (release : Release) :
    Except String Outcome × List Effect :=
  match detectPackagedInstall env with
  | .appimage path =>
    match findAppImageAsset release.assets with
    | none => (.ok (.notUpdated "asset_not_found" release.htmlUrl), [])
    | some asset => applyAppImageUpdate env asset path release.version
  | _ => (.ok (.notUpdated "packaged_manual" release.htmlUrl), [])

/-- Model of `checkForUpdates` (src/updater.js lines 232-264): package
metadata is loaded with a caught failure, the repo is resolved (no repo is
a structured outcome), the metadata fetch is awaited WITHOUT a guard so a
thrown `GitHub API error` propagates, a missing latest version and an
up-to-date comparison are structured outcomes, a packaged install
dispatches to `handlePackagedUpdate`, and the source path downloads the
zipball (failure throws before the temp dir exists), extracts it and
overlays the tree (either failure propagates). -/
def checkForUpdates (env : Env) (appIsPackaged : Bool) :
    Except String Outcome × List Effect :=
  let pkg := env.pkgLoad
  match resolveRepo env.githubRepo pkg with
  | none => (.ok (.notUpdated "no_repo" none), [])
  | some _ =>
    let currentVersion :=
      (jsOrStr (pkg.bind Pkg.version) (some "0.0.0")).getD "0.0.0"
    match getLatestRelease env.fetchRelease with
    | .error e => (.error e, [])
    | .ok release =>
      match release.version with
      | none => (.ok (.notUpdated "no_latest" none), [])
      | some latestVersion =>
        if isNewerVersion latestVersion currentVersion = false then
          (.ok (.notUpdated "up_to_date" none), [])
        else if appIsPackaged then
          handlePackagedUpdate env release
        else
          let zipUrl := release.zipballUrl.getD ""
          let zipPath := env.tmpDir ++ "/update.zip"
          if env.downloadZipOk = false then
            (.error ("Download failed " ++ toString env.downloadZipStatus), [])
          else if env.extractOk = false then
            (.error "extract failed",
              [.mkdtemp env.tmpDir, .download zipUrl zipPath])
          else if env.copyOk = false then
            (.error "copy failed",
              [.mkdtemp env.tmpDir, .download zipUrl zipPath, .overlayTree])
          else
            (.ok (.updated (some latestVersion) none),
              [.mkdtemp env.tmpDir, .download zipUrl zipPath, .overlayTree])

/-- A neutral environment: nothing set, every operation succeeds. -/
def envBase : Env :=
  { githubRepo := ""
  , githubToken := ""
  , appImage := ""
  , platformLinux := true
  , execPath := "/usr/bin/electron"
  , pkgLoad := none
  , fetchRelease := .httpError 500
  , downloadZipOk := true
  , downloadZipStatus := 200
  , extractOk := true
  , copyOk := true
  , downloadBinOk := true
  , downloadBinStatus := 200
  , backupCopyOk := true
  , applyCopyOk := true
  , tmpDir := "/tmp/chatgpt-electron-update-x"
  , now := 1700000000000 }

/-- Environment of the C2 counterexample: a repo override is present and
the release-metadata fetch answers HTTP 404. -/
def envC2 : Env := { envBase with githubRepo := "owner/name", fetchRelease := .httpError 404 }

/-- C2 counterexample: with a configured repo and a non-success HTTP
status on the release-metadata fetch, `checkForUpdates` does not return a
structured outcome: the raw `GitHub API error 404` propagates to the
caller as a thrown error. -/
theorem checkForUpdates_http_error_counterexample :
    (checkForUpdates envC2 false).1 = .error "GitHub API error 404" ∧
    ∀ o, (checkForUpdates envC2 false).1 ≠ .ok o := by
  refine ⟨rfl, fun o h => ?_⟩
  rw [show (checkForUpdates envC2 false).1 = .error "GitHub API error 404"
    from rfl] at h
  exact Except.noConfusion h

/-- C2 amended: `checkForUpdates` yields structured outcomes on the
configuration and packaged-dispatch paths (tolerating a failed
package.json load), but it does not guard the release-metadata fetch: a
non-success HTTP status there propagates to the caller as a thrown
`GitHub API error` (the menu handler in the main process catches it); the
archive download, extraction and overlay failures of the source path
propagate likewise. -/
theorem checkForUpdates_outcome_contract (env : Env) (appIsPackaged : Bool) :
    (resolveRepo env.githubRepo env.pkgLoad = none →
      checkForUpdates env appIsPackaged =
        (.ok (.notUpdated "no_repo" none), [])) ∧
    (∀ status repo, resolveRepo env.githubRepo env.pkgLoad = some repo →
      env.fetchRelease = .httpError status →
      checkForUpdates env appIsPackaged =
        (.error ("GitHub API error " ++ toString status), [])) := by
  constructor
  · intro h
    unfold checkForUpdates
    dsimp only
    rw [h]
  · intro status repo h1 h2
    unfold checkForUpdates
    dsimp only
    rw [h1, h2]
    rfl

/-- Closed instance of `checkForUpdates_outcome_contract`: the HTTP 404
environment makes the call throw. -/
theorem checkForUpdates_outcome_contract_witness :
    checkForUpdates envC2 false =
      (.error ("GitHub API error " ++ toString 404), []) :=
  (checkForUpdates_outcome_contract envC2 false).2 404 "owner/name"
    (by decide) rfl

/-- Environment of the C3 scenario: AppImage install, backup copy fails,
everything else succeeds. -/
def envC3 : Env :=
  { envBase with
      appImage := "/apps/current.AppImage"
    , backupCopyOk := false
    , tmpDir := "/tmp/chatgpt-appimage-update-x" }

/-- The matching release asset of the C3 scenario. -/
def assetC3 : Asset :=
  { name := some "app-latest.AppImage"
  , browser_download_url := some "https://example.com/app-latest.AppImage" }

/-- C3 counterexample: with the backup copy failing, the update proceeds,
but the returned outcome is not `Updated` with an absent `backupPath`: it
carries the timestamped backup path string even though no backup was
written. -/
theorem applyAppImageUpdate_backup_counterexample :
    (applyAppImageUpdate envC3 assetC3 "/apps/current.AppImage"
        (some "2.0.0")).1 =
      .ok (.updated (some "2.0.0")
        (some "/apps/current.AppImage.bak-1700000000000")) ∧
    (applyAppImageUpdate envC3 assetC3 "/apps/current.AppImage"
        (some "2.0.0")).1 ≠
      .ok (.updated (some "2.0.0") none) := by
  refine ⟨rfl, fun h => ?_⟩
  rw [show (applyAppImageUpdate envC3 assetC3 "/apps/current.AppImage"
      (some "2.0.0")).1 =
    .ok (.updated (some "2.0.0")
      (some "/apps/current.AppImage.bak-1700000000000")) from rfl] at h
  simp at h

/-- C3 amended: for a packaged AppImage install with a matching asset, a
failing backup copy does not abort the update: the new binary is still
downloaded, made executable and copied over the live path, and the
outcome is `Updated` — but its `backupPath` field still carries the
precomputed timestamped backup path string (not an absent field), while
the effect trace shows that no copy to that backup path was performed. -/
theorem applyAppImageUpdate_backup_failure (env : Env) (asset : Asset)
    (installPath : String) (version : Option String) (url : String)
    (hurl : asset.browser_download_url = some url)
    (hdl : env.downloadBinOk = true) (hbk : env.backupCopyOk = false)
    (hap : env.applyCopyOk = true) :
    applyAppImageUpdate env asset installPath version =
      (.ok (.updated version
          (some (installPath ++ ".bak-" ++ toString env.now))),
        [.mkdtemp env.tmpDir,
          .download url (appImageTmpPath env asset installPath),
          .chmod (appImageTmpPath env asset installPath),
          .copyFile (appImageTmpPath env asset installPath) installPath,
          .chmod installPath,
          .rmFile (appImageTmpPath env asset installPath),
          .rmDir env.tmpDir]) := by
  unfold applyAppImageUpdate
  rw [hurl, hdl, hbk, hap]
  simp

/-- Closed instance of `applyAppImageUpdate_backup_failure` in the C3
environment. -/
theorem applyAppImageUpdate_backup_failure_witness :
    applyAppImageUpdate envC3 assetC3 "/apps/current.AppImage"
        (some "2.0.0") =
      (.ok (.updated (some "2.0.0")
          (some ("/apps/current.AppImage" ++ ".bak-" ++ toString envC3.now))),
        [.mkdtemp envC3.tmpDir,
          .download "https://example.com/app-latest.AppImage"
            (appImageTmpPath envC3 assetC3 "/apps/current.AppImage"),
          .chmod (appImageTmpPath envC3 assetC3 "/apps/current.AppImage"),
          .copyFile (appImageTmpPath envC3 assetC3 "/apps/current.AppImage")
            "/apps/current.AppImage",
          .chmod "/apps/current.AppImage",
          .rmFile (appImageTmpPath envC3 assetC3 "/apps/current.AppImage"),
          .rmDir envC3.tmpDir]) :=
  applyAppImageUpdate_backup_failure envC3 assetC3 "/apps/current.AppImage"
    (some "2.0.0") "https://example.com/app-latest.AppImage"
    rfl rfl rfl rfl

/-- C6: for a packaged AppImage install whose latest release has no asset
named `*.AppImage`, the packaged-update handler returns the
asset-not-found outcome carrying the release page URL and performs no
effect: no download, no temporary directory, no write. -/
theorem handlePackagedUpdate_no_asset (env : Env) (release : Release)
    (henv : env.appImage ≠ "")
    (hassets : findAppImageAsset release.assets = none) :
    handlePackagedUpdate env release =
      (.ok (.notUpdated "asset_not_found" release.htmlUrl), []) := by
  unfold handlePackagedUpdate detectPackagedInstall
  have hb : (env.appImage != "") = true := by simpa using henv
  rw [hb, hassets]
  rfl

/-- The release of the C6 scenario: assets exist but none ends in
`.AppImage`. -/
def relC6 : Release :=
  { version := some "2.0.0"
  , zipballUrl := some "https://api.github.com/repos/owner/name/zipball/v2.0.0"
  , assets :=
      [{ name := some "app-x86_64.zip"
       , browser_download_url := some "https://example.com/app.zip" },
        { name := some "notes.txt"
        , browser_download_url := some "https://example.com/notes.txt" }]
  , htmlUrl := some "https://github.com/owner/name/releases/tag/v2.0.0" }

/-- Environment of the C6 scenario: an AppImage install. -/
def envC6 : Env :=
  { envBase with
      githubRepo := "owner/name"
    , appImage := "/apps/current.AppImage" }

/-- Closed instance of `handlePackagedUpdate_no_asset`. -/
theorem handlePackagedUpdate_no_asset_witness :
    handlePackagedUpdate envC6 relC6 =
      (.ok (.notUpdated "asset_not_found"
        (some "https://github.com/owner/name/releases/tag/v2.0.0")), []) :=
  handlePackagedUpdate_no_asset envC6 relC6 (by decide) (by decide)

end Updater
